import Mathlib

/-!
Verification of the fireship.pro caption core.

Shallow embedding of the caption-processing core of the repository:

* `getFixedSubtitles` (src/src/getFixedSubtitles.ts) — the Timing Repairer;
* `cleanSubtitleText` (src/unnamed/part_001) — the Text Normalizer;
* the per-record parsing/filtering step of `getSubtitles` (src/src/bot.ts),
  together with `String.prototype.capitalize` (src/src/bot.ts).

Times are modelled as rationals (`Rat`); the JavaScript value `NaN` that
`Number.parseFloat` can produce is modelled as `none` in `Option Rat`.
Lists of subtitles that may contain the JavaScript value `undefined`
(which the timing repairer can produce for empty input) are modelled as
`List (Option Subtitle)`, with `none` standing for `undefined`.
-/

/-- Structure `Subtitle` from src/src/bot.ts: `{ text, startTime, endTime }`. -/
structure Subtitle where
  text : String
  startTime : Rat
  endTime : Rat
deriving DecidableEq, Repr

/-! ## Timing Repairer (src/src/getFixedSubtitles.ts)

The source sorts a copy of the list with the comparator
`(a, b) => a.startTime - b.startTime`.  `Array.prototype.sort` is a
stable sort, and the stable ascending sort by a key is unique, so it is
embedded as `List.insertionSort` (a stable sort) by `startTime`. -/

/-- The ordering used by the comparator `(a, b) => a.startTime - b.startTime`. -/
def byStart (a b : Subtitle) : Prop := a.startTime ≤ b.startTime

instance : DecidableRel byStart := fun a b =>
  inferInstanceAs (Decidable (a.startTime ≤ b.startTime))

instance : IsTotal Subtitle byStart := ⟨fun a b => le_total a.startTime b.startTime⟩

instance : IsTrans Subtitle byStart := ⟨fun _ _ _ h h' => le_trans h h'⟩

/-- The sort `[...subtitles].sort((a, b) => a.startTime - b.startTime)`. -/
def sortByStart (l : List Subtitle) : List Subtitle := l.insertionSort byStart

/-- The loop of `getFixedSubtitles`: for `i` from `0` to `length - 2`
push `{ ...sorted[i], endTime: sorted[i+1].startTime }`. -/
def stitched : List Subtitle → List Subtitle
  | [] => []
  | [_] => []
  | a :: b :: rest => { a with endTime := b.startTime } :: stitched (b :: rest)

/-- Function `getFixedSubtitles` from src/src/getFixedSubtitles.ts.

`null` input (`none`) returns `[]` via the `if (!subtitles) return []`
guard.  An array — even an empty one — is truthy in JavaScript, so an
empty list is NOT caught by the guard: the loop body never runs and
`sortedSubtitles[sortedSubtitles.length - 1]`, i.e. `sortedSubtitles[-1]`,
evaluates to `undefined` (modelled `none`) and is pushed unconditionally. -/
def getFixedSubtitles : Option (List Subtitle) → List (Option Subtitle)
  | none => []
  | some subs =>
    let sorted := sortByStart subs
    (stitched sorted).map some ++ [sorted.getLast?]

/-- The combined effect of the loop plus the final unconditional push, on a
non-empty list, expressed as a single recursion (used for reasoning). -/
def fixRun : List Subtitle → List Subtitle
  | [] => []
  | [a] => [a]
  | a :: b :: rest => { a with endTime := b.startTime } :: fixRun (b :: rest)

theorem stitched_append_getLast :
    ∀ (a : Subtitle) (l : List Subtitle),
      (stitched (a :: l)).map some ++ [(a :: l).getLast?] =
        (fixRun (a :: l)).map some := by
  intro a l
  induction l generalizing a with
  | nil => rfl
  | cons b t ih =>
    simp only [stitched, fixRun, List.map_cons, List.cons_append]
    rw [List.getLast?_cons_cons, ih b]

theorem getFixedSubtitles_some_of_ne_nil (subs : List Subtitle)
    (h : sortByStart subs ≠ []) :
    getFixedSubtitles (some subs) = (fixRun (sortByStart subs)).map some := by
  have h1 : getFixedSubtitles (some subs)
      = (stitched (sortByStart subs)).map some ++ [(sortByStart subs).getLast?] := rfl
  rw [h1]
  cases hs : sortByStart subs with
  | nil => exact absurd hs h
  | cons a l => exact stitched_append_getLast a l

theorem sortByStart_ne_nil (subs : List Subtitle) (h : subs ≠ []) :
    sortByStart subs ≠ [] := by
  intro hs
  apply h
  have := List.perm_insertionSort byStart subs
  rw [sortByStart] at hs
  rw [hs] at this
  exact (List.Perm.nil_eq this).symm

theorem fixRun_length : ∀ l : List Subtitle, (fixRun l).length = l.length
  | [] => rfl
  | [_] => rfl
  | _ :: b :: rest => by
    simp only [fixRun, List.length_cons]
    simp [fixRun_length (b :: rest)]

/-- The stitched run keeps every field except `endTime` of every record:
any observation that ignores `endTime` is preserved pointwise. -/
theorem fixRun_map_eq {β : Type} (f : Subtitle → β)
    (hf : ∀ (s : Subtitle) (e : Rat), f { s with endTime := e } = f s) :
    ∀ l : List Subtitle, (fixRun l).map f = l.map f
  | [] => rfl
  | [_] => rfl
  | a :: b :: rest => by
    simp only [fixRun, List.map_cons]
    rw [fixRun_map_eq f hf (b :: rest), hf a]
    rfl

theorem fixRun_getLast? : ∀ l : List Subtitle, (fixRun l).getLast? = l.getLast?
  | [] => rfl
  | [_] => rfl
  | a :: b :: rest => by
    have h1 : fixRun (a :: b :: rest) =
        { a with endTime := b.startTime } :: fixRun (b :: rest) := rfl
    rw [h1]
    cases hr : fixRun (b :: rest) with
    | nil =>
      have hlen := fixRun_length (b :: rest)
      rw [hr] at hlen
      simp at hlen
    | cons x t =>
      rw [List.getLast?_cons_cons, ← hr, fixRun_getLast? (b :: rest),
        List.getLast?_cons_cons]

theorem fixRun_head_startTime :
    ∀ (b : Subtitle) (rest : List Subtitle), ∃ y t,
      fixRun (b :: rest) = y :: t ∧ y.startTime = b.startTime
  | b, [] => ⟨b, [], rfl, rfl⟩
  | b, c :: t => ⟨{ b with endTime := c.startTime }, fixRun (c :: t), rfl, rfl⟩

/-- Adjacency relation produced by the repair loop. -/
def adjOk (x y : Subtitle) : Prop := x.endTime = y.startTime

theorem fixRun_chain_adj : ∀ l : List Subtitle, List.Chain' adjOk (fixRun l)
  | [] => List.chain'_nil
  | [a] => List.chain'_singleton a
  | a :: b :: rest => by
    have h1 : fixRun (a :: b :: rest) =
        { a with endTime := b.startTime } :: fixRun (b :: rest) := rfl
    rw [h1]
    obtain ⟨y, t, hy, hst⟩ := fixRun_head_startTime b rest
    rw [hy]
    refine List.Chain'.cons ?_ (by rw [← hy]; exact fixRun_chain_adj (b :: rest))
    show ({ a with endTime := b.startTime } : Subtitle).endTime = y.startTime
    rw [hst]

theorem fixRun_fixpoint : ∀ l : List Subtitle, List.Chain' adjOk l → fixRun l = l
  | [], _ => rfl
  | [_], _ => rfl
  | a :: b :: rest, h => by
    have h1 : fixRun (a :: b :: rest) =
        { a with endTime := b.startTime } :: fixRun (b :: rest) := rfl
    have hab : a.endTime = b.startTime := (List.chain'_cons.mp h).1
    rw [h1, fixRun_fixpoint (b :: rest) (List.chain'_cons.mp h).2, ← hab]

theorem fixRun_getElem? :
    ∀ (l : List Subtitle) (i : Nat) (x y : Subtitle),
      l[i]? = some x → l[i + 1]? = some y →
      (fixRun l)[i]? = some { x with endTime := y.startTime }
  | [], i, x, y, hx, _ => by simp at hx
  | [a], i, x, y, hx, hy => by
    match i with
    | 0 => simp at hy
    | i + 1 => simp at hx
  | a :: b :: rest, i, x, y, hx, hy => by
    have h1 : fixRun (a :: b :: rest) =
        { a with endTime := b.startTime } :: fixRun (b :: rest) := rfl
    match i with
    | 0 =>
      simp only [List.getElem?_cons_zero] at hx
      simp only [List.getElem?_cons_succ, List.getElem?_cons_zero] at hy
      cases hx; cases hy
      rw [h1]; simp
    | i + 1 =>
      rw [List.getElem?_cons_succ] at hx
      rw [List.getElem?_cons_succ] at hy
      rw [h1, List.getElem?_cons_succ]
      exact fixRun_getElem? (b :: rest) i x y hx hy

/-! ### Sortedness and stability of the sort -/

theorem sortByStart_sorted (l : List Subtitle) :
    List.Pairwise byStart (sortByStart l) :=
  List.sorted_insertionSort byStart l

theorem sortByStart_perm (l : List Subtitle) : List.Perm (sortByStart l) l :=
  List.perm_insertionSort byStart l

/-- The comparator looks only at `startTime`, so inserting a record whose
`startTime` is `t` prepends it to the sub-sequence of records at `t`. -/
theorem filter_orderedInsert_eq (a : Subtitle) (t : Rat) (ha : a.startTime = t) :
    ∀ m : List Subtitle,
      (List.orderedInsert byStart a m).filter (fun s => decide (s.startTime = t)) =
        a :: m.filter (fun s => decide (s.startTime = t))
  | [] => by simp [List.orderedInsert, ha]
  | b :: m => by
    by_cases hab : byStart a b
    · rw [List.orderedInsert_of_le byStart m hab]
      simp [ha]
    · have hb : b.startTime ≠ t := by
        intro hbt
        exact hab (by simp [byStart, ha, hbt])
      simp only [List.orderedInsert, if_neg hab]
      rw [List.filter_cons_of_neg (by simpa using hb),
        filter_orderedInsert_eq a t ha m,
        List.filter_cons_of_neg (by simpa using hb)]

theorem filter_orderedInsert_ne (a : Subtitle) (t : Rat) (ha : a.startTime ≠ t) :
    ∀ m : List Subtitle,
      (List.orderedInsert byStart a m).filter (fun s => decide (s.startTime = t)) =
        m.filter (fun s => decide (s.startTime = t))
  | [] => by simp [List.orderedInsert, ha]
  | b :: m => by
    by_cases hab : byStart a b
    · rw [List.orderedInsert_of_le byStart m hab]
      rw [List.filter_cons_of_neg (by simpa using ha)]
    · simp only [List.orderedInsert, if_neg hab]
      by_cases hb : b.startTime = t
      · rw [List.filter_cons_of_pos (by simpa using hb),
          filter_orderedInsert_ne a t ha m,
          List.filter_cons_of_pos (by simpa using hb)]
      · rw [List.filter_cons_of_neg (by simpa using hb),
          filter_orderedInsert_ne a t ha m,
          List.filter_cons_of_neg (by simpa using hb)]

/-- Stability of the embedded sort, in filter form: for every start time `t`,
the records whose `startTime` is `t` appear in the sorted list exactly as
they appear (whole records, in the same order) in the input. -/
theorem filter_sortByStart (t : Rat) :
    ∀ l : List Subtitle,
      (sortByStart l).filter (fun s => decide (s.startTime = t)) =
        l.filter (fun s => decide (s.startTime = t))
  | [] => rfl
  | a :: l => by
    show (List.orderedInsert byStart a (sortByStart l)).filter _ = _
    by_cases ha : a.startTime = t
    · rw [filter_orderedInsert_eq a t ha, filter_sortByStart t l,
        List.filter_cons_of_pos (by simpa using ha)]
    · rw [filter_orderedInsert_ne a t ha, filter_sortByStart t l,
        List.filter_cons_of_neg (by simpa using ha)]

theorem fixRun_map_startTime (l : List Subtitle) :
    (fixRun l).map Subtitle.startTime = l.map Subtitle.startTime :=
  fixRun_map_eq Subtitle.startTime (fun _ _ => rfl) l

theorem fixRun_pairwise_byStart :
    ∀ l : List Subtitle, List.Pairwise byStart l →
      List.Pairwise byStart (fixRun l)
  | [], _ => List.Pairwise.nil
  | [a], _ => List.pairwise_singleton byStart a
  | a :: b :: rest, h => by
    have h1 : fixRun (a :: b :: rest) =
        { a with endTime := b.startTime } :: fixRun (b :: rest) := rfl
    rw [h1]
    refine List.Pairwise.cons ?_
      (fixRun_pairwise_byStart (b :: rest) (List.pairwise_cons.mp h).2)
    intro y hy
    have hmem : y.startTime ∈ (fixRun (b :: rest)).map Subtitle.startTime :=
      List.mem_map_of_mem Subtitle.startTime hy
    rw [fixRun_map_startTime] at hmem
    obtain ⟨x, hx, hxy⟩ := List.mem_map.mp hmem
    have hax : byStart a x := (List.pairwise_cons.mp h).1 x hx
    show a.startTime ≤ y.startTime
    rw [← hxy]
    exact hax

theorem chain'_rel_getElem? {α : Type} {R : α → α → Prop} {l : List α}
    (h : List.Chain' R l) (i : Nat) (a b : α)
    (ha : l[i]? = some a) (hb : l[i + 1]? = some b) : R a b := by
  obtain ⟨hb1, hb2⟩ := List.getElem?_eq_some.mp hb
  obtain ⟨ha1, ha2⟩ := List.getElem?_eq_some.mp ha
  subst ha2
  subst hb2
  exact List.chain'_iff_get.mp h i (by omega)

/-! ## Claims about the Timing Repairer -/

/-- C1: on any input list, the repairer stably sorts by `startTime` and
then, for every index `i` up to `length - 2`, outputs `sorted[i]` with its
`endTime` replaced by `sorted[i+1].startTime`, unconditionally (no
validation); consequently every adjacent pair of present output records
satisfies `output[i].endTime = output[i+1].startTime`. -/
theorem timingRepair_stitch_and_adjacency (subs : List Subtitle) :
    (∀ (i : Nat) (x y : Subtitle),
        (sortByStart subs)[i]? = some x → (sortByStart subs)[i + 1]? = some y →
        (getFixedSubtitles (some subs))[i]? =
          some (some { x with endTime := y.startTime }))
    ∧ (∀ (i : Nat) (oa ob : Option Subtitle),
        (getFixedSubtitles (some subs))[i]? = some oa →
        (getFixedSubtitles (some subs))[i + 1]? = some ob →
        ∀ a ∈ oa, ∀ b ∈ ob, a.endTime = b.startTime) := by
  by_cases h : sortByStart subs = []
  · constructor
    · intro i x y hx _
      rw [h] at hx
      simp at hx
    · intro i oa ob hoa hob
      have h1 : getFixedSubtitles (some subs) = [none] := by
        have h2 : getFixedSubtitles (some subs)
            = (stitched (sortByStart subs)).map some ++ [(sortByStart subs).getLast?] := rfl
        rw [h2, h]
        rfl
      rw [h1] at hoa hob
      match i with
      | 0 =>
        simp only [List.getElem?_cons_succ] at hob
        simp at hob
      | i + 1 =>
        simp only [List.getElem?_cons_succ] at hoa
        simp at hoa
  · rw [getFixedSubtitles_some_of_ne_nil subs h]
    constructor
    · intro i x y hx hy
      rw [List.getElem?_map, fixRun_getElem? (sortByStart subs) i x y hx hy]
      rfl
    · intro i oa ob hoa hob a ha b hb
      rw [List.getElem?_map] at hoa hob
      obtain ⟨a0, ha0, ha0e⟩ := Option.map_eq_some'.mp hoa
      obtain ⟨b0, hb0, hb0e⟩ := Option.map_eq_some'.mp hob
      have hchain := fixRun_chain_adj (sortByStart subs)
      have hrel : adjOk a0 b0 :=
        chain'_rel_getElem? hchain i a0 b0 ha0 hb0
      rw [← ha0e] at ha
      rw [← hb0e] at hb
      cases ha
      cases hb
      exact hrel

/-- Witness for C1 on the concrete input
`[{text := "b", 4, 9}, {text := "a", 1, 2}]` (out of order on purpose):
the sort reorders it and index `0` of the output is record `"a"` with its
`endTime` moved from `2` to `4`. -/
theorem timingRepair_stitch_and_adjacency_witness :
    (sortByStart [⟨"b", 4, 9⟩, ⟨"a", 1, 2⟩])[0]? = some ⟨"a", 1, 2⟩ ∧
    (sortByStart [⟨"b", 4, 9⟩, ⟨"a", 1, 2⟩])[1]? = some ⟨"b", 4, 9⟩ ∧
    (getFixedSubtitles (some [⟨"b", 4, 9⟩, ⟨"a", 1, 2⟩]))[0]? =
      some (some ⟨"a", 1, 4⟩) :=
  ⟨by decide, by decide,
    (timingRepair_stitch_and_adjacency [⟨"b", 4, 9⟩, ⟨"a", 1, 2⟩]).1 0
      ⟨"a", 1, 2⟩ ⟨"b", 4, 9⟩ (by decide) (by decide)⟩

/-- C2 (the code's actual behaviour at the claim's failing input):
`repair(null)` is `[]`, but `repair([])` is `[undefined]` — a one-element
list containing `undefined` (modelled `none`) — because `![]` is `false`
in JavaScript, so the empty array passes the guard and
`sortedSubtitles[-1]`, i.e. `undefined`, is pushed. -/
theorem timingRepair_empty_input_bug :
    getFixedSubtitles none = [] ∧ getFixedSubtitles (some []) = [none] :=
  ⟨rfl, rfl⟩

/-- C6: the repaired output is sorted ascending by `startTime`, and the
sort is stable: (i) present output records are pairwise ordered by
`startTime`; (ii) for every start time `t` the records at `t` appear in
the sorted list exactly as in the input (same records, same order); (iii)
the output records, `endTime` apart, are positionally the sorted records
(`text` and `startTime` agree index by index). -/
theorem timingRepair_sorted_and_stable (subs : List Subtitle) :
    List.Pairwise (fun x y : Option Subtitle =>
        ∀ a ∈ x, ∀ b ∈ y, a.startTime ≤ b.startTime) (getFixedSubtitles (some subs))
    ∧ (∀ t : Rat, (sortByStart subs).filter (fun s => decide (s.startTime = t)) =
        subs.filter (fun s => decide (s.startTime = t)))
    ∧ ((getFixedSubtitles (some subs)).filterMap id).map
          (fun s => (s.text, s.startTime)) =
        (sortByStart subs).map (fun s => (s.text, s.startTime)) := by
  refine ⟨?_, fun t => filter_sortByStart t subs, ?_⟩
  · by_cases h : sortByStart subs = []
    · have h1 : getFixedSubtitles (some subs) = [none] := by
        have h2 : getFixedSubtitles (some subs)
            = (stitched (sortByStart subs)).map some ++ [(sortByStart subs).getLast?] := rfl
        rw [h2, h]
        rfl
      rw [h1]
      exact List.pairwise_singleton _ _
    · rw [getFixedSubtitles_some_of_ne_nil subs h]
      refine List.Pairwise.map some ?_
        (fixRun_pairwise_byStart (sortByStart subs) (sortByStart_sorted subs))
      intro a b hab x hx y hy
      cases hx
      cases hy
      exact hab
  · by_cases h : sortByStart subs = []
    · have h1 : getFixedSubtitles (some subs) = [none] := by
        have h2 : getFixedSubtitles (some subs)
            = (stitched (sortByStart subs)).map some ++ [(sortByStart subs).getLast?] := rfl
        rw [h2, h]
        rfl
      rw [h1, h]
      rfl
    · rw [getFixedSubtitles_some_of_ne_nil subs h]
      have h3 : ((fixRun (sortByStart subs)).map some).filterMap id
          = fixRun (sortByStart subs) := by
        simp
      rw [h3]
      exact fixRun_map_eq (fun s => (s.text, s.startTime)) (fun _ _ => rfl) _

/-- C7: on a non-empty input the final output record is the last record
of the stably sorted input, entirely unmodified (its `endTime` keeps its
input value), and a one-record input comes back unchanged. -/
theorem timingRepair_last_unmodified :
    (∀ subs : List Subtitle, subs ≠ [] → ∃ z : Subtitle,
        (sortByStart subs).getLast? = some z ∧
        (getFixedSubtitles (some subs)).getLast? = some (some z))
    ∧ ∀ s : Subtitle, getFixedSubtitles (some [s]) = [some s] := by
  constructor
  · intro subs hne
    have hs := sortByStart_ne_nil subs hne
    obtain ⟨z, hz⟩ := Option.ne_none_iff_exists'.mp
      (mt List.getLast?_eq_none_iff.mp hs)
    refine ⟨z, hz, ?_⟩
    rw [getFixedSubtitles_some_of_ne_nil subs hs, List.getLast?_map,
      fixRun_getLast?, hz]
    rfl
  · intro s
    rfl

/-- Witness for C7 at the single-record input `{text := "a", 5, 9}`. -/
theorem timingRepair_last_unmodified_witness :
    ([(⟨"a", 5, 9⟩ : Subtitle)] ≠ []) ∧
    (∃ z : Subtitle, (sortByStart [⟨"a", 5, 9⟩]).getLast? = some z ∧
      (getFixedSubtitles (some [⟨"a", 5, 9⟩])).getLast? = some (some z)) :=
  ⟨List.cons_ne_nil _ _,
    timingRepair_last_unmodified.1 [⟨"a", 5, 9⟩] (List.cons_ne_nil _ _)⟩

/-- C8: the Timing Repairer is idempotent.  The output list is fed back
in after unwrapping the `Option` layer (`filterMap id`); for every
non-empty input all entries are present, so this is exactly
`repair(repair(records))`, and for the empty input both sides are the
one-element `[undefined]` list. -/
theorem timingRepair_idempotent (subs : List Subtitle) :
    getFixedSubtitles (some ((getFixedSubtitles (some subs)).filterMap id)) =
      getFixedSubtitles (some subs) := by
  by_cases h : sortByStart subs = []
  · have hsubs : subs = [] := by
      have hp := sortByStart_perm subs
      rw [h] at hp
      exact (List.Perm.nil_eq hp).symm
    subst hsubs
    rfl
  · rw [getFixedSubtitles_some_of_ne_nil subs h]
    have h3 : ((fixRun (sortByStart subs)).map some).filterMap id
        = fixRun (sortByStart subs) := by
      simp
    rw [h3]
    have hsorted : sortByStart (fixRun (sortByStart subs))
        = fixRun (sortByStart subs) :=
      List.Sorted.insertionSort_eq
        (fixRun_pairwise_byStart (sortByStart subs) (sortByStart_sorted subs))
    have hne : fixRun (sortByStart subs) ≠ [] := by
      intro hnil
      have := fixRun_length (sortByStart subs)
      rw [hnil] at this
      exact h (List.length_eq_zero.mp this.symm)
    rw [getFixedSubtitles_some_of_ne_nil _ (by rw [hsorted]; exact hne),
      hsorted, fixRun_fixpoint _ (fixRun_chain_adj _)]

/-! ## Text Normalizer (src/unnamed/part_001, `cleanSubtitleText`)

The function chains two global regex replacements and a trim:

* `/&(#?[a-zA-Z0-9]+);/g`, replaced by the text the external HTML parser
  produces for `&<entity>;`, falling back to the matched substring when
  that text is `null` or empty (`decoded || match`);
* `/\\(\d{3})([a-zA-Z])/g`, replaced by
  `String.fromCharCode(Number.parseInt(octal, 8)) + char`;
* `.trim()`.

Both replacements are embedded as left-to-right scanners over the
character list, which is exactly how a global regex replace traverses
the string for these patterns (no other position can start a match). -/

/-- The character class `[a-zA-Z0-9]`. -/
def isAlnumCh (c : Char) : Bool := c.isAlpha || c.isDigit

/-- Decimal value of a digit run; `none` when empty or not all digits. -/
def decDigitsVal (l : List Char) : Option Nat :=
  if l.isEmpty || l.any (fun c => !c.isDigit) then none
  else some (l.foldl (fun acc c => acc * 10 + (c.toNat - 48)) 0)

/-- Hexadecimal value of a hex-digit run; `none` when empty or invalid. -/
def hexDigitsVal (l : List Char) : Option Nat :=
  l.foldl (fun acc c =>
    match acc with
    | none => none
    | some a =>
      if c.isDigit then some (a * 16 + (c.toNat - 48))
      else if 'a' ≤ c && c ≤ 'f' then some (a * 16 + (c.toNat - 87))
      else if 'A' ≤ c && c ≤ 'F' then some (a * 16 + (c.toNat - 55))
      else none) (if l.isEmpty then none else some 0)

/-- A code point that decodes to a character (nonzero Unicode scalar). -/
def scalarChar (v : Nat) : Option (List Char) :=
  if v ≠ 0 ∧ (v < 0xD800 ∨ (0xDFFF < v ∧ v < 0x110000)) then
    some [Char.ofNat v]
  else none

/-- Modelled from the spec: the external HTML parser (jsdom's `DOMParser`,
not part of this repository) that the source asks to decode one
`&<entity>;` reference.  Following the spec's words, a named reference is
decoded through the standard HTML character-reference table (the entries
relevant to caption text are listed), a numeric reference `#<digits>` or
`#x<hex>` through its code point, and an unrecognized or undecodable
entity yields `none`, which makes the caller keep the matched substring
verbatim. -/
def decodeEntity (hash : Bool) (body : List Char) : Option (List Char) :=
  if hash then
    match body with
    | 'x' :: hs => (hexDigitsVal hs).bind scalarChar
    | 'X' :: hs => (hexDigitsVal hs).bind scalarChar
    | ds => (decDigitsVal ds).bind scalarChar
  else
    match body with
    | ['a', 'm', 'p'] => some ['&']
    | ['q', 'u', 'o', 't'] => some ['"']
    | ['l', 't'] => some ['<']
    | ['g', 't'] => some ['>']
    | ['a', 'p', 'o', 's'] => some ['\'']
    | ['n', 'b', 's', 'p'] => some [' ']
    | _ => none

/-- Flush a partially-matched reference verbatim: the leading `&`, the
optional `#`, and the alphanumeric run read so far. -/
def entFlush (hash : Bool) (buf : List Char) : List Char :=
  '&' :: (if hash then '#' :: buf else buf)

/-- The replacement for one full match of `/&(#?[a-zA-Z0-9]+);/g`:
`decoded || match`, so the decoded text unless decoding failed (`null`)
or produced the empty string, both falsy, in which case the matched
substring itself is kept. -/
def entReplacement (hash : Bool) (buf : List Char) : List Char :=
  match decodeEntity hash buf with
  | some d => if d.isEmpty then entFlush hash buf ++ [';'] else d
  | none => entFlush hash buf ++ [';']

/-- Left-to-right scanner realizing the global replace of
`/&(#?[a-zA-Z0-9]+);/g`.  The state is `none` outside a potential
reference and `some (hash, buf)` directly after a `&` (and `#` when
`hash` is set), `buf` being the alphanumeric run read so far.  Only `&`
can start a match, so flushing a failed attempt verbatim and resuming
after it is exactly what the regex engine does. -/
def entScan : List Char → Option (Bool × List Char) → List Char
  | [], none => []
  | [], some (hash, buf) => entFlush hash buf
  | c :: rest, none =>
    if c = '&' then entScan rest (some (false, []))
    else c :: entScan rest none
  | c :: rest, some (hash, buf) =>
    if isAlnumCh c then entScan rest (some (hash, buf ++ [c]))
    else if c = ';' then
      if buf.isEmpty then entFlush hash buf ++ [';'] ++ entScan rest none
      else entReplacement hash buf ++ entScan rest none
    else if c = '#' && !hash && buf.isEmpty then entScan rest (some (true, []))
    else if c = '&' then entFlush hash buf ++ entScan rest (some (false, []))
    else entFlush hash buf ++ (c :: entScan rest none)

/-- The character class `[0-7]` accepted by `Number.parseInt(·, 8)`. -/
def isOctDigitCh (c : Char) : Bool := '0' ≤ c && c ≤ '7'

def octParseAux (acc : Nat) : List Char → Nat
  | [] => acc
  | c :: rest =>
    if isOctDigitCh c then octParseAux (acc * 8 + (c.toNat - 48)) rest else acc

/-- Value of `String.fromCharCode(Number.parseInt(l, 8))` for a digit string `l`:
`parseInt` reads the longest leading run of octal digits and is `NaN`
when that run is empty; `fromCharCode` maps `NaN` through `ToUint16` to
code `0`.  So the empty run yields `0`, and any run yields its base-8
value (always below `0x200`, a valid scalar). -/
def octParseVal : List Char → Nat
  | [] => 0
  | c :: rest =>
    if isOctDigitCh c then octParseAux (c.toNat - 48) rest else 0

/-- Left-to-right scanner realizing the global replace of
`/\\(\d{3})([a-zA-Z])/g`: a backslash followed by exactly three decimal
digits and one ASCII letter is replaced by the decoded character followed
by that letter; everything else is copied. -/
def octScan : List Char → List Char
  | [] => []
  | '\\' :: d1 :: d2 :: d3 :: ch :: rest =>
    if d1.isDigit && d2.isDigit && d3.isDigit && ch.isAlpha then
      Char.ofNat (octParseVal [d1, d2, d3]) :: ch :: octScan rest
    else '\\' :: octScan (d1 :: d2 :: d3 :: ch :: rest)
  | c :: rest => c :: octScan rest

/-- The whitespace set of `String.prototype.trim` (ECMAScript WhiteSpace
and LineTerminator, the members that can occur in caption text). -/
def isJsSpace (c : Char) : Bool :=
  c = ' ' || c = '\t' || c = '\n' || c = '\r' || c = '\x0b' || c = '\x0c' ||
  c.toNat = 0xA0 || c.toNat = 0xFEFF || c.toNat = 0x2028 || c.toNat = 0x2029

/-- Model of `.trim()`: drop leading and trailing whitespace. -/
def trimChars (l : List Char) : List Char :=
  ((l.dropWhile isJsSpace).reverse.dropWhile isJsSpace).reverse

/-- Function `cleanSubtitleText` from src/unnamed/part_001: entity
decoding, then octal-escape repair, then trim. -/
def cleanSubtitleText (s : String) : String :=
  String.mk (trimChars (octScan (entScan s.data none)))

/-- Method `String.prototype.capitalize` from src/src/bot.ts:
`this.charAt(0).toUpperCase() + this.slice(1)`.  `toUpperCase` is
modelled by `Char.toUpper` (the ASCII case map), which agrees with it on
the captions this bot handles. -/
def capitalizeStr (s : String) : String :=
  match s.data with
  | [] => ""
  | c :: rest => String.mk (c.toUpper :: rest)

/-- The Text Normalizer as composed in `getSubtitles` (src/src/bot.ts):
`cleanSubtitleText($(node).text()).capitalize()`. -/
def normalizeText (s : String) : String := capitalizeStr (cleanSubtitleText s)

/-! ## Claims about the Text Normalizer -/

theorem octScan_match (d1 d2 d3 ch : Char) (rest : List Char)
    (h1 : d1.isDigit = true) (h2 : d2.isDigit = true) (h3 : d3.isDigit = true)
    (hc : ch.isAlpha = true) :
    octScan ('\\' :: d1 :: d2 :: d3 :: ch :: rest) =
      Char.ofNat (octParseVal [d1, d2, d3]) :: ch :: octScan rest := by
  simp [octScan, h1, h2, h3, hc]

theorem octDigit_isDigit {c : Char} (h : isOctDigitCh c = true) :
    c.isDigit = true := by
  simp only [isOctDigitCh, Bool.and_eq_true, decide_eq_true_eq] at h
  simp only [Char.isDigit, Bool.and_eq_true, decide_eq_true_eq]
  obtain ⟨hl, hr⟩ := h
  exact ⟨hl, le_trans hr (show ('7' : Char) ≤ '9' by decide)⟩

theorem octParseVal_three (d1 d2 d3 : Char) (h1 : isOctDigitCh d1 = true)
    (h2 : isOctDigitCh d2 = true) (h3 : isOctDigitCh d3 = true) :
    octParseVal [d1, d2, d3] =
      (d1.toNat - 48) * 64 + (d2.toNat - 48) * 8 + (d3.toNat - 48) := by
  simp [octParseVal, octParseAux, h1, h2, h3]
  ring

/-- C4: every match of a backslash, three decimal digits and one ASCII
letter is replaced by the character whose code is the digit string read
as a base-8 number, followed by that letter; in particular the pass
(before trimming/capitalization) sends `"\303A"` to `chr 195` ++ `"A"`. -/
theorem octalRepair_decodes_base8 :
    (∀ (d1 d2 d3 ch : Char) (rest : List Char),
      isOctDigitCh d1 = true → isOctDigitCh d2 = true → isOctDigitCh d3 = true →
      ch.isAlpha = true →
      octScan ('\\' :: d1 :: d2 :: d3 :: ch :: rest) =
        Char.ofNat ((d1.toNat - 48) * 64 + (d2.toNat - 48) * 8 + (d3.toNat - 48))
          :: ch :: octScan rest)
    ∧ octScan (entScan (String.data "\\303A") none) = [Char.ofNat 195, 'A'] := by
  constructor
  · intro d1 d2 d3 ch rest h1 h2 h3 hc
    rw [octScan_match d1 d2 d3 ch rest (octDigit_isDigit h1)
      (octDigit_isDigit h2) (octDigit_isDigit h3) hc,
      octParseVal_three d1 d2 d3 h1 h2 h3]
  · decide

/-- Witness for C4 at the match `"\303A"` itself. -/
theorem octalRepair_decodes_base8_witness :
    octScan ('\\' :: '3' :: '0' :: '3' :: 'A' :: []) =
      Char.ofNat (('3'.toNat - 48) * 64 + ('0'.toNat - 48) * 8 + ('3'.toNat - 48))
        :: 'A' :: octScan [] :=
  octalRepair_decodes_base8.1 '3' '0' '3' 'A' []
    (by decide) (by decide) (by decide) (by decide)

theorem octParseAux_stop (c : Char) (hc : isOctDigitCh c = false) :
    ∀ (pre : List Char) (acc : Nat) (suf : List Char),
      (∀ x ∈ pre, isOctDigitCh x = true) →
      octParseAux acc (pre ++ c :: suf) = octParseAux acc pre
  | [], acc, suf, _ => by simp [octParseAux, hc]
  | x :: pre, acc, suf, ha => by
    have hx := ha x (List.mem_cons_self x pre)
    simp only [List.cons_append, octParseAux, hx, if_true]
    exact octParseAux_stop c hc pre _ suf
      (fun y hy => ha y (List.mem_cons_of_mem x hy))

/-- C10: a match whose three digits include an `8` or `9` is still
replaced (the regex accepts any decimal digits): `parseInt(·, 8)` reads
the longest octal-digit prefix — digits from the first `8`/`9` on are
ignored, and an empty prefix gives code `0` through `fromCharCode(NaN)` —
and the decoded character is spliced before the trailing letter;
`"\383A"` becomes `chr 3` ++ `"A"`. -/
theorem octalRepair_nonoctal_still_replaced :
    (∀ (d1 d2 d3 ch : Char) (rest : List Char),
      d1.isDigit = true → d2.isDigit = true → d3.isDigit = true →
      ch.isAlpha = true →
      (d1 = '8' ∨ d1 = '9' ∨ d2 = '8' ∨ d2 = '9' ∨ d3 = '8' ∨ d3 = '9') →
      octScan ('\\' :: d1 :: d2 :: d3 :: ch :: rest) =
        Char.ofNat (octParseVal [d1, d2, d3]) :: ch :: octScan rest)
    ∧ (∀ (pre : List Char) (c : Char) (suf : List Char),
        (∀ x ∈ pre, isOctDigitCh x = true) → isOctDigitCh c = false →
        octParseVal (pre ++ c :: suf) = octParseVal pre)
    ∧ octScan (entScan (String.data "\\383A") none) = [Char.ofNat 3, 'A'] := by
  refine ⟨?_, ?_, by decide⟩
  · intro d1 d2 d3 ch rest h1 h2 h3 hc _
    exact octScan_match d1 d2 d3 ch rest h1 h2 h3 hc
  · intro pre c suf hpre hc
    cases pre with
    | nil => simp [octParseVal, hc]
    | cons x pre =>
      have hx := hpre x (List.mem_cons_self x pre)
      simp only [List.cons_append, octParseVal, hx, if_true]
      exact octParseAux_stop c hc pre _ suf
        (fun y hy => hpre y (List.mem_cons_of_mem x hy))

/-- Witness for C10 at the match `"\383A"`. -/
theorem octalRepair_nonoctal_witness :
    octScan ('\\' :: '3' :: '8' :: '3' :: 'A' :: []) =
      Char.ofNat (octParseVal ['3', '8', '3']) :: 'A' :: octScan [] :=
  octalRepair_nonoctal_still_replaced.1 '3' '8' '3' 'A' []
    (by decide) (by decide) (by decide) (by decide)
    (Or.inr (Or.inr (Or.inl rfl)))

theorem entScan_run (hash : Bool) :
    ∀ (e buf rest : List Char),
      (∀ c ∈ e, isAlnumCh c = true) → buf ++ e ≠ [] →
      entScan (e ++ ';' :: rest) (some (hash, buf)) =
        entReplacement hash (buf ++ e) ++ entScan rest none
  | [], buf, rest, _, hne => by
    rw [List.append_nil] at hne
    have hbuf : buf.isEmpty = false := by
      cases buf with
      | nil => exact absurd rfl hne
      | cons x t => rfl
    rw [List.nil_append, List.append_nil]
    simp only [entScan]
    rw [if_neg (by decide : ¬ isAlnumCh ';' = true)]
    simp [hbuf]
  | c :: e, buf, rest, ha, _ => by
    have hc : isAlnumCh c = true := ha c (List.mem_cons_self c e)
    have ih := entScan_run hash e (buf ++ [c]) rest
      (fun x hx => ha x (List.mem_cons_of_mem c hx)) (by simp)
    rw [List.cons_append]
    simp only [entScan]
    rw [if_pos hc]
    rw [ih]
    simp

/-- C5: every match of `&(#?[a-zA-Z0-9]+);` is replaced by the decoding
of the captured entity through the character-reference table; an
unrecognized or undecodable entity keeps the matched substring verbatim;
the scan is a total function (never throws); and concretely
`normalize("&amp;") = "&"` while `normalize("&zzzz;") = "&zzzz;"`. -/
theorem entityDecoding_replaces_and_passes_through :
    (∀ (e rest : List Char), e ≠ [] → (∀ c ∈ e, isAlnumCh c = true) →
      entScan ('&' :: (e ++ ';' :: rest)) none =
        entReplacement false e ++ entScan rest none)
    ∧ (∀ (e rest : List Char), e ≠ [] → (∀ c ∈ e, isAlnumCh c = true) →
      entScan ('&' :: '#' :: (e ++ ';' :: rest)) none =
        entReplacement true e ++ entScan rest none)
    ∧ (∀ e : List Char, decodeEntity false e = none →
        entReplacement false e = '&' :: (e ++ [';']))
    ∧ normalizeText "&amp;" = "&"
    ∧ normalizeText "&zzzz;" = "&zzzz;" := by
  refine ⟨?_, ?_, ?_, by decide, by decide⟩
  · intro e rest he ha
    have h1 : entScan ('&' :: (e ++ ';' :: rest)) none =
        entScan (e ++ ';' :: rest) (some (false, [])) := by
      simp [entScan]
    rw [h1, entScan_run false e [] rest ha (by simpa using he)]
    rfl
  · intro e rest he ha
    have h1 : entScan ('&' :: '#' :: (e ++ ';' :: rest)) none =
        entScan ('#' :: (e ++ ';' :: rest)) (some (false, [])) := by
      simp [entScan]
    have h2 : entScan ('#' :: (e ++ ';' :: rest)) (some (false, [])) =
        entScan (e ++ ';' :: rest) (some (true, [])) := by
      simp [entScan, isAlnumCh]
    rw [h1, h2, entScan_run true e [] rest ha (by simpa using he)]
    rfl
  · intro e hnone
    simp [entReplacement, hnone, entFlush]

/-- Witness for C5 at the entity `&amp;`: the captured body `"amp"` is
alphanumeric and non-empty, and the match is replaced by its decoding. -/
theorem entityDecoding_witness :
    entScan ('&' :: (['a', 'm', 'p'] ++ ';' :: [])) none =
      entReplacement false ['a', 'm', 'p'] ++ entScan [] none :=
  entityDecoding_replaces_and_passes_through.1 ['a', 'm', 'p'] []
    (by decide) (by decide)

theorem dropWhile_head_not {p : Char → Bool} :
    ∀ (l : List Char) (c : Char) (t : List Char),
      l.dropWhile p = c :: t → p c = false
  | [], c, t, h => by simp at h
  | a :: l, c, t, h => by
    by_cases hp : p a = true
    · rw [List.dropWhile_cons_of_pos hp] at h
      exact dropWhile_head_not l c t h
    · rw [List.dropWhile_cons_of_neg hp] at h
      cases h
      simpa using hp

/-- Behaviour of `trimChars`: the input splits as whitespace, the trimmed
core, and whitespace, and the core neither starts nor ends with a
whitespace character. -/
theorem trimChars_spec (l : List Char) :
    (∃ pre suf, (∀ c ∈ pre, isJsSpace c = true) ∧ (∀ c ∈ suf, isJsSpace c = true) ∧
      l = pre ++ (trimChars l ++ suf))
    ∧ (∀ (c : Char) (t : List Char), trimChars l = c :: t → isJsSpace c = false)
    ∧ (∀ c : Char, (trimChars l).getLast? = some c → isJsSpace c = false) := by
  have hTrim : trimChars l =
      ((l.dropWhile isJsSpace).reverse.dropWhile isJsSpace).reverse := rfl
  refine ⟨?_, ?_, ?_⟩
  · refine ⟨l.takeWhile isJsSpace,
      ((l.dropWhile isJsSpace).reverse.takeWhile isJsSpace).reverse, ?_, ?_, ?_⟩
    · intro c hc
      exact List.mem_takeWhile_imp hc
    · intro c hc
      rw [List.mem_reverse] at hc
      exact List.mem_takeWhile_imp hc
    · rw [hTrim]
      have h1 : l = l.takeWhile isJsSpace ++ l.dropWhile isJsSpace :=
        (List.takeWhile_append_dropWhile isJsSpace l).symm
      have h2 : (l.dropWhile isJsSpace).reverse =
          (l.dropWhile isJsSpace).reverse.takeWhile isJsSpace ++
            (l.dropWhile isJsSpace).reverse.dropWhile isJsSpace :=
        (List.takeWhile_append_dropWhile isJsSpace
          (l.dropWhile isJsSpace).reverse).symm
      have h3 := congrArg List.reverse h2
      rw [List.reverse_reverse, List.reverse_append] at h3
      conv_lhs => rw [h1]
      rw [← h3]
  · intro c t hct
    rw [hTrim] at hct
    have hlast : ((l.dropWhile isJsSpace).reverse.dropWhile isJsSpace).getLast?
        = some c := by
      rw [← List.head?_reverse, hct]
      rfl
    have hne : (l.dropWhile isJsSpace).reverse.dropWhile isJsSpace ≠ [] := by
      intro hnil
      rw [hnil] at hlast
      simp at hlast
    have h2 : (l.dropWhile isJsSpace).reverse =
        (l.dropWhile isJsSpace).reverse.takeWhile isJsSpace ++
          (l.dropWhile isJsSpace).reverse.dropWhile isJsSpace :=
      (List.takeWhile_append_dropWhile isJsSpace
        (l.dropWhile isJsSpace).reverse).symm
    have h4 : ((l.dropWhile isJsSpace).reverse).getLast? = some c := by
      rw [h2, List.getLast?_append_of_ne_nil _ hne]
      exact hlast
    rw [List.getLast?_reverse] at h4
    cases hd : l.dropWhile isJsSpace with
    | nil =>
      rw [hd] at h4
      simp at h4
    | cons x xs =>
      rw [hd] at h4
      simp only [List.head?_cons, Option.some.injEq] at h4
      subst h4
      exact dropWhile_head_not l x xs hd
  · intro c hcl
    rw [hTrim, List.getLast?_reverse] at hcl
    cases hd : (l.dropWhile isJsSpace).reverse.dropWhile isJsSpace with
    | nil =>
      rw [hd] at hcl
      simp at hcl
    | cons x xs =>
      rw [hd] at hcl
      simp only [List.head?_cons, Option.some.injEq] at hcl
      rw [← hcl]
      exact dropWhile_head_not (l.dropWhile isJsSpace).reverse x xs hd

/-- C9: after entity decoding and octal repair the normalizer trims
leading and trailing whitespace and then uppercases the first character,
leaving the rest unchanged; the empty string maps to the empty string;
`normalize("  hello world  ") = "Hello world"`. -/
theorem normalizer_trim_and_capitalize :
    (∀ s : String, normalizeText s =
        capitalizeStr (String.mk (trimChars (octScan (entScan s.data none)))))
    ∧ (∀ l : List Char,
        (∃ pre suf, (∀ c ∈ pre, isJsSpace c = true) ∧
          (∀ c ∈ suf, isJsSpace c = true) ∧ l = pre ++ (trimChars l ++ suf))
        ∧ (∀ (c : Char) (t : List Char), trimChars l = c :: t → isJsSpace c = false)
        ∧ (∀ c : Char, (trimChars l).getLast? = some c → isJsSpace c = false))
    ∧ capitalizeStr "" = ""
    ∧ (∀ (c : Char) (rest : List Char),
        capitalizeStr (String.mk (c :: rest)) = String.mk (c.toUpper :: rest))
    ∧ normalizeText "  hello world  " = "Hello world" :=
  ⟨fun _ => rfl, trimChars_spec, rfl, fun _ _ => rfl, by decide⟩

/-- Witness for C9: the trim decomposition and the head/last conditions
instantiated at the concrete list `"  hi "`, plus the concrete example. -/
theorem normalizer_trim_and_capitalize_witness :
    trimChars (String.data "  hi ") = String.data "hi" ∧
    isJsSpace 'h' = false ∧
    normalizeText "  hello world  " = "Hello world" :=
  ⟨by decide,
    (normalizer_trim_and_capitalize.2.1 (String.data "  hi ")).2.1 'h' ['i']
      (by decide),
    normalizer_trim_and_capitalize.2.2.2.2⟩

/-! ## Composition entry point: `getSubtitles` (src/src/bot.ts)

Only the pure per-record transform inside the `.map` callback is
embedded; the network fetch and XML traversal around it merely supply
one `(text, start, dur)` triple per `<text>` node. -/

/-- One `<text>` node as read by the scraper: the raw text plus the
optional `start` and `dur` attributes (absent attribute: `none`). -/
structure RawTextNode where
  text : String
  start? : Option String
  dur? : Option String
deriving DecidableEq, Repr

def digitsToNatAcc (acc : Nat) : List Char → Nat
  | [] => acc
  | c :: rest => digitsToNatAcc (acc * 10 + (c.toNat - 48)) rest

/-- Model of `Number.parseFloat`, on the decimal-string shapes a captions track
carries: an optional sign, then digits with an optional fractional part,
read as the longest valid prefix; `none` models `NaN` (no digit at all).
Exponents, `Infinity` and leading whitespace do not occur in these
attributes and are not modelled. -/
def parseFloat (s : String) : Option Rat :=
  let (sign, l) :=
    match s.data with
    | '-' :: t => ((-1 : Rat), t)
    | '+' :: t => ((1 : Rat), t)
    | t => ((1 : Rat), t)
  let intPart := l.takeWhile Char.isDigit
  let frPart :=
    match l.dropWhile Char.isDigit with
    | '.' :: t => t.takeWhile Char.isDigit
    | _ => []
  if intPart.isEmpty && frPart.isEmpty then none
  else some (sign * ((digitsToNatAcc 0 intPart : Rat) +
    (digitsToNatAcc 0 frPart : Rat) / ((10 : Rat) ^ frPart.length)))

/-- IEEE addition in our model: `NaN` (`none`) propagates. -/
def numAdd : Option Rat → Option Rat → Option Rat
  | some a, some b => some (a + b)
  | _, _ => none

/-- JavaScript falsiness of a number: exactly `0` and `NaN` are falsy. -/
def numFalsy : Option Rat → Bool
  | none => true
  | some q => decide (q = 0)

/-- Parsed start time `Number.parseFloat($(node).attr("start") || "0")`. -/
def parsedStart (raw : RawTextNode) : Option Rat :=
  parseFloat (raw.start?.getD "0")

/-- Computed end time `startTime + Number.parseFloat($(node).attr("dur") || "0")`. -/
def parsedEnd (raw : RawTextNode) : Option Rat :=
  numAdd (parsedStart raw) (parseFloat (raw.dur?.getD "0"))

/-- The body of the `.map` callback in `getSubtitles`: normalize the
text, parse the timing attributes, and return `null` (here `none`) when
`!startTime || !endTime`. -/
def processNode (raw : RawTextNode) : Option Subtitle :=
  match parsedStart raw, parsedEnd raw with
  | some s, some e =>
    if s = 0 ∨ e = 0 then none
    else some ⟨normalizeText raw.text, s, e⟩
  | _, _ => none

/-- The record list built by `getSubtitles`: map the callback over the
`<text>` nodes and filter out the `null`s. -/
def getSubtitlesRecords (nodes : List RawTextNode) : List Subtitle :=
  (nodes.map processNode).filterMap id

/-- The discard rule exactly as the claim words it (for comparison with
the source): unparsable or missing values are treated as `0`,
`endTime = startTime + duration`, and the record is discarded exactly
when `startTime` or `endTime` equals `0`. -/
def claimDiscards (raw : RawTextNode) : Bool :=
  let s := (parseFloat (raw.start?.getD "0")).getD 0
  let e := s + (parseFloat (raw.dur?.getD "0")).getD 0
  decide (s = 0) || decide (e = 0)

/-- C3 counterexample: at `start="5"`, `dur="x"` the claim's rule
(unparsable treated as `0`) computes `startTime = 5`, `endTime = 5` and
keeps the record, but the code drops it: `parseFloat("x")` is `NaN`, so
the computed `endTime` is `NaN`, which is falsy. -/
theorem composition_discard_counterexample :
    claimDiscards ⟨"t", some "5", some "x"⟩ = false ∧
    processNode ⟨"t", some "5", some "x"⟩ = none := by
  constructor
  · have h : claimDiscards ⟨"t", some "5", some "x"⟩
        = (decide ((1 * (((5 : Nat) : Rat) + ((0 : Nat) : Rat) / (10 : Rat) ^ (0 : Nat))) = 0) ||
           decide ((1 * (((5 : Nat) : Rat) + ((0 : Nat) : Rat) / (10 : Rat) ^ (0 : Nat)) + 0) = 0)) := rfl
    rw [h]
    simp only [Bool.or_eq_false_iff, decide_eq_false_iff_not]
    norm_num
  · rfl

/-- C3 amended: `start`/`dur` are parsed with missing attributes
defaulting to `"0"`; an unparsable value parses to `NaN` (not `0`) and
`NaN` propagates into `endTime = startTime + duration`; a record is
silently discarded exactly when its parsed `startTime` or computed
`endTime` is falsy (`0` or `NaN`), and nothing is raised (the transform
is a total function returning `none` for dropped records). -/
theorem composition_discard_amended (raw : RawTextNode) :
    (processNode raw = none ↔
      (numFalsy (parsedStart raw) || numFalsy (parsedEnd raw)) = true)
    ∧ (∀ s e : Rat, parsedStart raw = some s → parsedEnd raw = some e →
        numFalsy (parsedStart raw) = false → numFalsy (parsedEnd raw) = false →
        processNode raw = some ⟨normalizeText raw.text, s, e⟩) := by
  constructor
  · cases hs : parsedStart raw with
    | none => simp [processNode, hs, numFalsy]
    | some s =>
      cases he : parsedEnd raw with
      | none => simp [processNode, hs, he, numFalsy]
      | some e =>
        simp only [processNode, hs, he, numFalsy]
        by_cases h0 : s = 0 ∨ e = 0
        · simp only [if_pos h0]
          constructor
          · intro _
            rcases h0 with h | h <;> simp [h]
          · intro _
            trivial
        · have hs0 : ¬ s = 0 := fun h => h0 (Or.inl h)
          have he0 : ¬ e = 0 := fun h => h0 (Or.inr h)
          simp [if_neg h0, hs0, he0]
  · intro s e hs he hfs hfe
    rw [hs] at hfs
    rw [he] at hfe
    simp only [numFalsy, decide_eq_false_iff_not] at hfs hfe
    simp [processNode, hs, he, hfs, hfe]

/-- Witness for C3 (amended) at `start="5"`, `dur="4"`: the record is
kept with `startTime = 5`, `endTime = 9`. -/
theorem composition_discard_amended_witness :
    processNode ⟨"t", some "5", some "4"⟩ =
      some ⟨normalizeText "t", 5, 9⟩ := by
  have h5 : parsedStart ⟨"t", some "5", some "4"⟩ = some 5 := by
    have h : parsedStart ⟨"t", some "5", some "4"⟩
        = some (1 * (((5 : Nat) : Rat) + ((0 : Nat) : Rat) / (10 : Rat) ^ (0 : Nat))) := rfl
    rw [h]
    norm_num
  have h9 : parsedEnd ⟨"t", some "5", some "4"⟩ = some 9 := by
    have h : parsedEnd ⟨"t", some "5", some "4"⟩
        = some (1 * (((5 : Nat) : Rat) + ((0 : Nat) : Rat) / (10 : Rat) ^ (0 : Nat))
            + 1 * (((4 : Nat) : Rat) + ((0 : Nat) : Rat) / (10 : Rat) ^ (0 : Nat))) := rfl
    rw [h]
    norm_num
  exact (composition_discard_amended ⟨"t", some "5", some "4"⟩).2 5 9 h5 h9
    (by rw [h5]; decide) (by rw [h9]; decide)

/-- Witness for C6 at a concrete out-of-order input with a tie at start
time `1`: stability keeps the two records at `1` in input order. -/
theorem timingRepair_sorted_and_stable_witness :
    (sortByStart [⟨"b", 4, 9⟩, ⟨"x", 1, 2⟩, ⟨"y", 1, 3⟩]).filter
        (fun s => decide (s.startTime = 1)) =
      [⟨"x", 1, 2⟩, ⟨"y", 1, 3⟩] := by
  have h := (timingRepair_sorted_and_stable
    [⟨"b", 4, 9⟩, ⟨"x", 1, 2⟩, ⟨"y", 1, 3⟩]).2.1 1
  rw [h]
  decide

/-- Witness for C8 at a concrete two-record input. -/
theorem timingRepair_idempotent_witness :
    getFixedSubtitles (some ((getFixedSubtitles
        (some [⟨"b", 4, 9⟩, ⟨"a", 1, 2⟩])).filterMap id)) =
      getFixedSubtitles (some [⟨"b", 4, 9⟩, ⟨"a", 1, 2⟩]) :=
  timingRepair_idempotent [⟨"b", 4, 9⟩, ⟨"a", 1, 2⟩]
